import Mathlib

/-!
Shallow embedding of the move-generation and scoring engine of the
aislobsterble agent (src/src/models/game_models.rs, src/src/controller.rs,
src/src/utilities.rs).

Conventions of the embedding:
* Rust `i32` coordinates and values are modelled as `Int` (no overflow is
  relevant to the verified properties).
* Rust `Vec<T>` is `List T`; an index expression `v.get(i as usize)` on an
  `i32` index is modelled by `listGetI`, which returns `none` for negative
  indices (a negative `i32` cast to `usize` is astronomically larger than any
  actual vector length) and otherwise performs the positional lookup.
* A Rust `panic!`/`unwrap`/`expect` failure is modelled by propagating `none`
  through `Option`; a `Result<T, String>` is modelled by `Except` with a small
  error enumeration in place of the message strings.
* The `while` loops that advance a cursor across the board are modelled with
  an explicit fuel argument.  The fuel used by the top-level wrappers,
  `gridFuel`, exceeds the number of in-grid cells along any row or column, and
  every continuing loop iteration in the source stands on an in-grid cell of
  the current row or column, so the fuel-exhaustion branches below are
  unreachable from the wrappers; they exist only to make the definitions
  structurally recursive.
-/

/-- `Tile` from game_models.rs: optional letter, point value, blank-origin
flag (fields in the declaration order used by `derive(Ord)`). -/
structure Tile where
  letter : Option Char
  value : Int
  is_blank : Bool
deriving DecidableEq, Repr

/-- `Coordinates` from game_models.rs. -/
structure Coordinates where
  row : Int
  column : Int
deriving DecidableEq, Repr

/-- `PlayedTile` from game_models.rs. -/
structure PlayedTile where
  coordinates : Coordinates
  tile : Tile
deriving DecidableEq, Repr

/-- `Modifier` from game_models.rs. -/
structure Modifier where
  letter_multiplier : Int
  word_multiplier : Int
deriving DecidableEq, Repr

/-- `Axis` from game_models.rs. -/
inductive Axis where
  | Horizontal
  | Vertical
deriving DecidableEq, Repr

/-- `Axis::complement`. -/
def Axis.complement : Axis → Axis
  | .Vertical => .Horizontal
  | .Horizontal => .Vertical

/-- `GameBoard` from game_models.rs: dimensions, grid of fixed tiles, grid of
modifiers. -/
structure GameBoard where
  rows : Int
  columns : Int
  board_tiles : List (List (Option Tile))
  modifiers : List (List Modifier)
deriving DecidableEq, Repr

/-- Indexing a vector by an `i32` cast to `usize`: negative indices are far
out of range, all others are ordinary positional lookups. -/
def listGetI {α : Type} (l : List α) (i : Int) : Option α :=
  if i < 0 then none else l.get? i.toNat

/-- `self.board_tiles.get(row as usize)` then `.get(column as usize)`:
`none` means the position is off the grid, `some none` an empty in-grid cell,
`some (some t)` an in-grid cell holding the fixed tile `t`. -/
def cellAtC (b : GameBoard) (c : Coordinates) : Option (Option Tile) :=
  match listGetI b.board_tiles c.row with
  | none => none
  | some rowTiles => listGetI rowTiles c.column

/-- The error cases of `build_played_tiles` (`Result<_, String>` in the
source, with three distinct message strings). -/
inductive BuildErr where
  | rowLimit
  | columnLimit
  | startOccupied
deriving DecidableEq, Repr

/-- The two chained `ok_or(...)?` lookups at the head of each
`build_played_tiles` iteration: a failed row lookup yields the
"not enough rows" error, a failed column lookup the "not enough columns"
error. -/
def lookupCell (b : GameBoard) (c : Coordinates) : Except BuildErr (Option Tile) :=
  match listGetI b.board_tiles c.row with
  | none => .error .rowLimit
  | some rowTiles =>
    match listGetI rowTiles c.column with
    | none => .error .columnLimit
    | some cell => .ok cell

/-- `self.modifiers.get(row).unwrap().get(column).unwrap()`. -/
def modifierAt (b : GameBoard) (c : Coordinates) : Option Modifier :=
  match listGetI b.modifiers c.row with
  | none => none
  | some rowMods => listGetI rowMods c.column

/-- The `(row_delta, column_delta)` of walking along an axis in the positive
direction. -/
def axisDelta : Axis → Int × Int
  | .Horizontal => (0, 1)
  | .Vertical => (1, 0)

/-- One step from `c` by the delta `d`. -/
def stepC (c : Coordinates) (d : Int × Int) : Coordinates :=
  ⟨c.row + d.1, c.column + d.2⟩

/-- Fuel that strictly exceeds the number of in-grid cells along any single
row or column of the board. -/
def gridFuel (b : GameBoard) : Nat :=
  b.board_tiles.length + b.board_tiles.foldr (fun r acc => max r.length acc) 0 + 2

/-- The adjacency deltas used by `is_connected`. -/
def adjacencyDeltas : List (Int × Int) := [(0, 1), (0, -1), (1, 0), (-1, 0)]

/-- Whether the cell holds a fixed board tile (off-grid cells hold none). -/
def hasFixedTile (b : GameBoard) (c : Coordinates) : Bool :=
  match cellAtC b c with
  | some (some _) => true
  | _ => false

/-- `GameBoard::is_connected`: true iff some played tile has a 4-neighbor
cell holding a fixed board tile; lookups that run off the grid are skipped
(`continue` in the source). -/
def is_connected (b : GameBoard) (played_tiles : List PlayedTile) : Bool :=
  played_tiles.any fun pt =>
    adjacencyDeltas.any fun d => hasFixedTile b (stepC pt.coordinates d)

/-- The center cell `(rows / 2, columns / 2)` (Rust `i32` division truncates
toward zero, as does `Int.div`). -/
def centerOf (b : GameBoard) : Coordinates :=
  ⟨Int.tdiv b.rows 2, Int.tdiv b.columns 2⟩

/-- `GameBoard::is_through_center`. -/
def is_through_center (b : GameBoard) (played_tiles : List PlayedTile) : Bool :=
  played_tiles.any fun pt => decide (pt.coordinates = centerOf b)

/-- `GameBoard::is_occupied(..).unwrap_or(true)` as used by the candidate
search: out-of-bounds start coordinates are treated as occupied. -/
def occupiedOrTrue (b : GameBoard) (c : Coordinates) : Bool :=
  match cellAtC b c with
  | none => true
  | some cell => cell.isSome

/-- The loop body of `GameBoard::extremal_connected_position`: repeatedly move
to the adjacent cell while it holds a fixed tile; stop on the last occupied
position once the neighbor is off the grid or empty. -/
def extremalAux (b : GameBoard) (d : Int × Int) : Nat → Coordinates → Coordinates
  | 0, pos => pos
  | fuel + 1, pos =>
    let adj := stepC pos d
    match cellAtC b adj with
    | none => pos
    | some none => pos
    | some (some _) => extremalAux b d fuel adj

/-- `GameBoard::min_connected_position` (negative direction along the axis). -/
def min_connected_position (b : GameBoard) (start : Coordinates) (axis : Axis) : Coordinates :=
  extremalAux b (match axis with | .Horizontal => (0, -1) | .Vertical => (-1, 0))
    (gridFuel b) start

/-- `GameBoard::max_connected_position` (positive direction along the axis). -/
def max_connected_position (b : GameBoard) (start : Coordinates) (axis : Axis) : Coordinates :=
  extremalAux b (match axis with | .Horizontal => (0, 1) | .Vertical => (1, 0))
    (gridFuel b) start

/-- The inner `while board_tile.is_some()` loop of `build_played_tiles`:
advance past occupied cells; stop on the first free cell; propagate the
bounds errors of the two lookups. -/
def skipOccupied (b : GameBoard) (d : Int × Int) : Nat → Coordinates → Except BuildErr Coordinates
  | 0, _ => .error .columnLimit
  | fuel + 1, pos =>
    match lookupCell b pos with
    | .error e => .error e
    | .ok none => .ok pos
    | .ok (some _) => skipOccupied b d fuel (stepC pos d)

/-- The `for (tile_index, tile)` loop of `build_played_tiles`: `first` is
`tile_index == 0`.  For each tile: look up the current position (propagating
bounds errors), fail with the start-occupied error when the very first
position is occupied, otherwise skip over the run of occupied cells, lay the
tile on the free cell found, and continue one cell further on. -/
def buildLoop (b : GameBoard) (d : Int × Int) (skipFuel : Nat) :
    List Tile → Coordinates → Bool → Except BuildErr (List PlayedTile)
  | [], _, _ => .ok []
  | t :: rest, pos, first =>
    match lookupCell b pos with
    | .error e => .error e
    | .ok cell =>
      if cell.isSome && first then .error .startOccupied
      else
        match skipOccupied b d skipFuel pos with
        | .error e => .error e
        | .ok freePos =>
          match buildLoop b d skipFuel rest (stepC freePos d) false with
          | .error e => .error e
          | .ok placed => .ok (⟨freePos, t⟩ :: placed)

/-- `GameBoard::build_played_tiles`. -/
def build_played_tiles (b : GameBoard) (start_coordinates : Coordinates)
    (tiles : List Tile) (axis : Axis) : Except BuildErr (List PlayedTile) :=
  buildLoop b (axisDelta axis) (gridFuel b) tiles start_coordinates true

/-- `GameBoard::played_tile_map` as a lookup function: the `HashMap` is
filled front to back with insert-overwrites, so a lookup returns the last
element of the list carrying the requested coordinates. -/
def mapGet (played_tiles : List PlayedTile) (c : Coordinates) : Option PlayedTile :=
  played_tiles.reverse.find? fun pt => decide (pt.coordinates = c)

/-- `GameBoard::primary_axis`.  Zero tiles panic.  For a single tile the
source compares the horizontal connected extremes but returns
`Axis::Vertical` in both branches of the comparison; that shape is mirrored
here verbatim.  For two or more tiles the axis comes from the first two
coordinates. -/
def primary_axis (b : GameBoard) (played_tiles : List PlayedTile) : Option Axis :=
  match played_tiles with
  | [] => none
  | [pt] =>
    let horizontalMin := min_connected_position b pt.coordinates Axis.Horizontal
    let horizontalMax := max_connected_position b pt.coordinates Axis.Horizontal
    if horizontalMin = horizontalMax then some Axis.Vertical else some Axis.Vertical
  | t1 :: t2 :: _ =>
    some (if t1.coordinates.row = t2.coordinates.row then Axis.Horizontal else Axis.Vertical)

/-- The `while position != end_position` loop of `score_secondary_axis`:
note it stops *at* `endPos` without scoring that cell, exactly as in the
source.  An empty in-grid cell other than the played tile's own position, or
a cell off the grid, panics (`none`). -/
def walkSecondary (b : GameBoard) (d : Int × Int) (endPos : Coordinates)
    (ptCoords : Coordinates) (ptValue letterMult : Int) :
    Nat → Coordinates → Option Int
  | 0, _ => none
  | fuel + 1, pos =>
    if pos = endPos then some 0
    else
      match cellAtC b pos with
      | none => none
      | some (some boardTile) =>
        match walkSecondary b d endPos ptCoords ptValue letterMult fuel (stepC pos d) with
        | none => none
        | some rest => some (boardTile.value + rest)
      | some none =>
        if ptCoords = pos then
          match walkSecondary b d endPos ptCoords ptValue letterMult fuel (stepC pos d) with
          | none => none
          | some rest => some (ptValue * letterMult + rest)
        else none

/-- `GameBoard::score_secondary_axis`: the modifier of the played tile's own
cell is unwrapped first, then the connected extremes bound the walk; a
single-cell span contributes 0. -/
def score_secondary_axis (b : GameBoard) (played_tile : PlayedTile) (axis : Axis) : Option Int :=
  match modifierAt b played_tile.coordinates with
  | none => none
  | some modifier =>
    let startPos := min_connected_position b played_tile.coordinates axis
    let endPos := max_connected_position b played_tile.coordinates axis
    if startPos = endPos then some 0
    else
      match walkSecondary b (axisDelta axis) endPos played_tile.coordinates
          played_tile.tile.value modifier.letter_multiplier (gridFuel b) startPos with
      | none => none
      | some total => some (total * modifier.word_multiplier)

/-- The `while position != coordinate_max || !handled_inclusive` loop of
`score_primary_axis`, returning the running `(total, word_multiplier)` pair
for the cells from `pos` to `endPos` inclusive.  A fixed board tile
contributes its raw value; an empty cell must be covered by a played tile
(else panic) and contributes value times letter multiplier while
multiplying the word multiplier. -/
def walkPrimary (b : GameBoard) (d : Int × Int) (endPos : Coordinates)
    (m : Coordinates → Option PlayedTile) : Nat → Coordinates → Option (Int × Int)
  | 0, _ => none
  | fuel + 1, pos =>
    match cellAtC b pos with
    | none => none
    | some cellContents =>
      match
        (match cellContents with
         | some boardTile => some (boardTile.value, (1 : Int))
         | none =>
           match m pos, modifierAt b pos with
           | some pt, some modifier =>
             some (pt.tile.value * modifier.letter_multiplier, modifier.word_multiplier)
           | _, _ => none) with
      | none => none
      | some vw =>
        if pos = endPos then some vw
        else
          match walkPrimary b d endPos m fuel (stepC pos d) with
          | none => none
          | some rest => some (vw.1 + rest.1, vw.2 * rest.2)

/-- `GameBoard::score_primary_axis`.  The source computes *both* walk bounds
with `min_connected_position` (the variable is called `coordinate_max` but is
not built with `max_connected_position`); that is mirrored here verbatim. -/
def score_primary_axis (b : GameBoard) (played_tiles : List PlayedTile) (axis : Axis) : Option Int :=
  if played_tiles.length = 0 then some 0
  else
    match played_tiles.head?, played_tiles.getLast? with
    | some firstTile, some lastTile =>
      let coordinateMin := min_connected_position b firstTile.coordinates axis
      let coordinateMax := min_connected_position b lastTile.coordinates axis
      match walkPrimary b (axisDelta axis) coordinateMax (mapGet played_tiles)
          (gridFuel b) coordinateMin with
      | none => none
      | some totalMult => some (totalMult.1 * totalMult.2)
    | _, _ => none

/-- The primary-axis scoring walk as the spec describes it: identical to
`score_primary_axis` except that the upper bound of the span is
`max_connected_position` of the last coordinate, extending outward through
trailing occupied cells.  Used only to exhibit the divergence between the
source and the spec. -/
def score_primary_axis_full_span (b : GameBoard) (played_tiles : List PlayedTile)
    (axis : Axis) : Option Int :=
  if played_tiles.length = 0 then some 0
  else
    match played_tiles.head?, played_tiles.getLast? with
    | some firstTile, some lastTile =>
      let coordinateMin := min_connected_position b firstTile.coordinates axis
      let coordinateMax := max_connected_position b lastTile.coordinates axis
      match walkPrimary b (axisDelta axis) coordinateMax (mapGet played_tiles)
          (gridFuel b) coordinateMin with
      | none => none
      | some totalMult => some (totalMult.1 * totalMult.2)
    | _, _ => none

/-- The `total += self.score_secondary_axis(...)` accumulation of
`GameBoard::score`: the first panicking tile aborts the whole computation. -/
def sumSecondary (b : GameBoard) (axis : Axis) : List PlayedTile → Option Int
  | [] => some 0
  | pt :: rest =>
    match score_secondary_axis b pt axis with
    | none => none
    | some v =>
      match sumSecondary b axis rest with
      | none => none
      | some r => some (v + r)

/-- `GameBoard::score`.  `primary_axis` is evaluated before the emptiness
check, so an empty placement panics (`none`) and the `return 0` branch below
it is unreachable.  Placements of more than one tile add the secondary-axis
contributions, then the primary-axis contribution, then the 50-point bingo
bonus when exactly 7 tiles were played. -/
def score (b : GameBoard) (played_tiles : List PlayedTile) : Option Int :=
  match primary_axis b played_tiles with
  | none => none
  | some primaryAxis =>
    if played_tiles.length = 0 then some 0
    else
      match
        (if played_tiles.length > 1 then
           sumSecondary b primaryAxis.complement played_tiles
         else some 0) with
      | none => none
      | some secondaryTotal =>
        match score_primary_axis b played_tiles primaryAxis with
        | none => none
        | some primaryTotal =>
          some (if played_tiles.length = 7 then secondaryTotal + primaryTotal + 50
                else secondaryTotal + primaryTotal)

/-- The inclusive letter-collecting walk of `GameBoard::build_word`: the
letter of the fixed tile, or of the played tile covering an empty cell; a
letterless tile, a missing played tile, or an off-grid position panics. -/
def buildWordAux (b : GameBoard) (d : Int × Int) (endPos : Coordinates)
    (m : Coordinates → Option PlayedTile) : Nat → Coordinates → Option (List Char)
  | 0, _ => none
  | fuel + 1, pos =>
    match cellAtC b pos with
    | none => none
    | some cellContents =>
      match
        (match cellContents with
         | some boardTile => boardTile.letter
         | none =>
           match m pos with
           | none => none
           | some pt => pt.tile.letter) with
      | none => none
      | some letter =>
        if pos = endPos then some [letter]
        else
          match buildWordAux b d endPos m fuel (stepC pos d) with
          | none => none
          | some rest => some (letter :: rest)

/-- `GameBoard::build_word`: the walking axis is horizontal iff start and end
share a row. -/
def build_word (b : GameBoard) (start finish : Coordinates)
    (m : Coordinates → Option PlayedTile) : Option String :=
  let axis : Axis := if start.row = finish.row then .Horizontal else .Vertical
  match buildWordAux b (axisDelta axis) finish m (gridFuel b) start with
  | none => none
  | some letters => some (String.mk letters)

/-- The `for played_tile in played_tiles` loop of `words_created`: one
secondary word per tile whose secondary-axis span covers more than one
cell. -/
def secondaryWords (b : GameBoard) (axis : Axis) (m : Coordinates → Option PlayedTile) :
    List PlayedTile → Option (List String)
  | [] => some []
  | pt :: rest =>
    let startPos := min_connected_position b pt.coordinates axis
    let endPos := max_connected_position b pt.coordinates axis
    if startPos = endPos then secondaryWords b axis m rest
    else
      match build_word b startPos endPos m with
      | none => none
      | some w =>
        match secondaryWords b axis m rest with
        | none => none
        | some ws => some (w :: ws)

/-- `GameBoard::words_created`: the full primary word followed by the
secondary cross words. -/
def words_created (b : GameBoard) (played_tiles : List PlayedTile) : Option (List String) :=
  match primary_axis b played_tiles with
  | none => none
  | some primaryAxis =>
    let m := mapGet played_tiles
    match played_tiles.head?, played_tiles.getLast? with
    | some firstTile, some lastTile =>
      let primaryStart := min_connected_position b firstTile.coordinates primaryAxis
      let primaryEnd := max_connected_position b lastTile.coordinates primaryAxis
      match build_word b primaryStart primaryEnd m with
      | none => none
      | some primaryWord =>
        match secondaryWords b primaryAxis.complement m played_tiles with
        | none => none
        | some ws => some (primaryWord :: ws)
    | _, _ => none

/-- `Tile::is_letterless`. -/
def Tile.is_letterless (t : Tile) : Bool := t.letter.isNone

/-- The number of letterless tiles of a rack. -/
def countLetterless (tiles : List Tile) : Nat :=
  (tiles.filter fun t => t.is_letterless).length

/-- The filling loop of `Rack::fill_blanks`: each letterless tile consumes
the next filler letter, keeping its value and blank flag; other tiles are
copied.  The branch where the fillers run out is unreachable under the
length guard of `fill_blanks`. -/
def fillBlanksGo : List Tile → List Char → List Tile
  | [], _ => []
  | t :: rest, fills =>
    if t.is_letterless then
      match fills with
      | f :: fs => ⟨some f, t.value, t.is_blank⟩ :: fillBlanksGo rest fs
      | [] => t :: fillBlanksGo rest []
    else t :: fillBlanksGo rest fills

/-- `Rack::fill_blanks`: panics (`none`) unless exactly as many filler
letters as letterless tiles are supplied. -/
def fill_blanks (tiles : List Tile) (letter_fills : List Char) : Option (List Tile) :=
  if letter_fills.length ≠ countLetterless tiles then none
  else some (fillBlanksGo tiles letter_fills)

/-- Rust ordering on `Option<char>`: `None` sorts before every `Some`, and
letters compare by code point. -/
def optCharLtB : Option Char → Option Char → Bool
  | none, none => false
  | none, some _ => true
  | some _, none => false
  | some c, some d => decide (c.toNat < d.toNat)

/-- The strict order of `derive(PartialOrd, Ord)` on `Tile`: lexicographic in
the field declaration order `letter`, `value`, `is_blank` (with
`false < true` on the flag). -/
def tileLt (a b : Tile) : Bool :=
  optCharLtB a.letter b.letter ||
    (decide (a.letter = b.letter) &&
      (decide (a.value < b.value) ||
        (decide (a.value = b.value) && (!a.is_blank && b.is_blank))))

/-- The tile order as the spec words it: by letter, then non-blank-origin
before blank-origin, then ascending value.  Used only to exhibit the
divergence from the derived order of the source. -/
def tileLtSpecWorded (a b : Tile) : Bool :=
  optCharLtB a.letter b.letter ||
    (decide (a.letter = b.letter) &&
      ((!a.is_blank && b.is_blank) ||
        (decide (a.is_blank = b.is_blank) && decide (a.value < b.value))))

/-- `next_combination` from utilities.rs: downward scan for the rightmost
index whose entry is below its maximal value.  `i` is the scanned index. -/
def nextCombScan (selection : List Nat) (population_size selection_size : Nat) :
    Nat → Option Nat
  | 0 =>
    if selection.getD 0 0 = population_size - selection_size then none else some 0
  | i + 1 =>
    if selection.getD (i + 1) 0 = population_size - selection_size + (i + 1) then
      nextCombScan selection population_size selection_size i
    else some (i + 1)

/-- `next_combination` from utilities.rs.  The `panic!` on a population
smaller than the selection, and the index underflow on an empty selection,
are modelled as `none`; the candidate search only calls this with
`0 < selection.length ≤ population_size`. -/
def next_combination (selection : List Nat) (population_size : Nat) : Option (List Nat) :=
  if population_size < selection.length ∨ selection.length = 0 then none
  else
    match nextCombScan selection population_size selection.length (selection.length - 1) with
    | none => none
    | some i =>
      let bumped := selection.getD i 0 + 1
      some ((List.range selection.length).map fun j =>
        if j < i then selection.getD j 0 else bumped + (j - i))

/-- `get_first` from utilities.rs: the largest index whose entry is below its
successor; scans downward. -/
def getFirstScan (permutation : List Nat) : Nat → Option Nat
  | 0 => if permutation.getD 0 0 < permutation.getD 1 0 then some 0 else none
  | i + 1 =>
    if permutation.getD (i + 1) 0 < permutation.getD (i + 2) 0 then some (i + 1)
    else getFirstScan permutation i

/-- `get_first` from utilities.rs (`None` for permutations of length ≤ 1; the
search never passes an empty permutation). -/
def get_first (permutation : List Nat) : Option Nat :=
  if permutation.length ≤ 1 then none
  else getFirstScan permutation (permutation.length - 2)

/-- The `while permutation[first] >= permutation[to_swap]` downward scan of
`next_permutation`: the largest index whose entry exceeds `pivot`. -/
def toSwapScan (permutation : List Nat) (pivot : Nat) : Nat → Nat
  | 0 => 0
  | j + 1 => if pivot < permutation.getD (j + 1) 0 then j + 1 else toSwapScan permutation pivot j

/-- Exchanging two positions of a list (`swap` from utilities.rs). -/
def listSwap (l : List Nat) (i j : Nat) : List Nat :=
  (l.set i (l.getD j 0)).set j (l.getD i 0)

/-- `next_permutation` from utilities.rs: find the pivot, swap it with the
rightmost larger entry, then reverse the suffix after the pivot (the final
two-pointer swap loop of the source is exactly that reversal). -/
def next_permutation (permutation : List Nat) : Option (List Nat) :=
  match get_first permutation with
  | none => none
  | some first =>
    let toSwap := toSwapScan permutation (permutation.getD first 0) (permutation.length - 1)
    let swapped := listSwap permutation first toSwap
    some (swapped.take (first + 1) ++ (swapped.drop (first + 1)).reverse)

/-- Character-wise upper-casing: an ASCII-faithful model of Rust's
`str::to_uppercase` (they agree on every ASCII string, which is all the
comparisons below depend on). -/
def stringToUpper (s : String) : String :=
  String.mk (s.data.map Char.toUpper)

/-- `load_dictionary` from controller.rs, applied to the lines of the word
file: each entry is upper-cased on load. -/
def loadDictionary (lines : List String) : List String :=
  lines.map stringToUpper

/-- `BLANK_FILLERS` from controller.rs. -/
def blankFillers : List Char := ['S', 'E', 'R', 'A', 'T']

/-- The letters `A`–`Z` tried for blank tiles (`b'A'..=b'Z'`). -/
def lettersAZ : List Char := (List.range 26).map fun i => Char.ofNat (65 + i)

/-- A candidate play: the placed tiles and their score. -/
abbrev Candidate := List PlayedTile × Int

/-- Concatenation of the per-iteration results of the search loops; any
iteration that panics (`none`) aborts the whole search, as a Rust panic
would. -/
def collectSteps : List (Option (List Candidate)) → Option (List Candidate)
  | [] => some []
  | st :: rest =>
    match st with
    | none => none
    | some here =>
      match collectSteps rest with
      | none => none
      | some more => some (here ++ more)

/-- Out-of-range rack indexing never happens along reachable iterations of
the search; the default tile only keeps the indexing total. -/
def defaultTile : Tile := ⟨none, 0, false⟩

/-- The body of the innermost search loop of `candidate_plays`: build the
placement for one ordered tile sequence (skipping this ordering on a build
error, as the source logs and continues), extract the words, and accept the
candidate iff every word is contained in the dictionary, attaching the
score. -/
def evalOrdered (dictionary : List String) (b : GameBoard) (start : Coordinates)
    (axis : Axis) (orderedTiles : List Tile) : Option (List Candidate) :=
  match build_played_tiles b start orderedTiles axis with
  | .error _ => some []
  | .ok played_tiles =>
    match words_created b played_tiles with
    | none => none
    | some ws =>
      if ws.all (fun w => dictionary.contains w) then
        match score b played_tiles with
        | none => none
        | some s => some [(played_tiles, s)]
      else some []

/-- The `while ordering.is_some()` loop of `candidate_plays`, stepping with
`next_permutation`.  The fuel passed by `combLoop` exceeds the length of any
`next_permutation` chain. -/
def permLoop (dictionary : List String) (b : GameBoard) (start : Coordinates)
    (axis : Axis) (rack : List Tile) (selection : List Nat) :
    Nat → Option (List Nat) → Option (List Candidate)
  | _, none => some []
  | 0, some _ => some []
  | fuel + 1, some ordering =>
    match evalOrdered dictionary b start axis
        (ordering.map fun idx => rack.getD (selection.getD idx 0) defaultTile) with
    | none => none
    | some here =>
      match permLoop dictionary b start axis rack selection fuel
          (next_permutation ordering) with
      | none => none
      | some more => some (here ++ more)

/-- The `while index_selection.is_some()` loop of `candidate_plays`, stepping
with `next_combination`; each selection runs the full permutation loop
starting from the identity ordering. -/
def combLoop (dictionary : List String) (b : GameBoard) (start : Coordinates)
    (axis : Axis) (rack : List Tile) (num_tiles : Nat) :
    Nat → Option (List Nat) → Option (List Candidate)
  | _, none => some []
  | 0, some _ => some []
  | fuel + 1, some selection =>
    match permLoop dictionary b start axis rack selection
        (Nat.factorial num_tiles + 1) (some (List.range num_tiles)) with
    | none => none
    | some here =>
      match combLoop dictionary b start axis rack num_tiles fuel
          (next_combination selection rack.length) with
      | none => none
      | some more => some (here ++ more)

/-- One `(start cell, axis, num_tiles)` iteration of `candidate_plays`: the
feasibility pre-check builds the first `num_tiles` rack tiles at the start
cell (skipping the combination on failure), the legality pre-check requires
connectivity or the center cell, then the combination/permutation loops
run. -/
def tryLength (dictionary : List String) (b : GameBoard) (rack : List Tile)
    (start : Coordinates) (axis : Axis) (num_tiles : Nat) : Option (List Candidate) :=
  match build_played_tiles b start
      ((List.range num_tiles).map fun i => rack.getD i defaultTile) axis with
  | .error _ => some []
  | .ok played_tiles =>
    if !is_connected b played_tiles && !is_through_center b played_tiles then some []
    else
      combLoop dictionary b start axis rack num_tiles
        (2 ^ rack.length + 1) (some (List.range num_tiles))

/-- One start-cell iteration of `candidate_plays`: occupied or out-of-bounds
start cells are skipped, otherwise both axes and every placement length from
1 to the rack size are tried. -/
def tryCell (dictionary : List String) (b : GameBoard) (rack : List Tile)
    (start : Coordinates) : Option (List Candidate) :=
  if occupiedOrTrue b start then some []
  else
    collectSteps ([Axis.Horizontal, Axis.Vertical].map fun axis =>
      collectSteps ((List.range' 1 rack.length).map fun num_tiles =>
        tryLength dictionary b rack start axis num_tiles))

/-- The placement search of `Controller::candidate_plays` once the rack has
no letterless tiles: every board cell in row-major order. -/
def candidatePlaysNoBlanks (dictionary : List String) (b : GameBoard)
    (rack : List Tile) : Option (List Candidate) :=
  collectSteps (((List.range b.rows.toNat).flatMap fun r =>
    (List.range b.columns.toNat).map fun c =>
      (⟨(r : Int), (c : Int)⟩ : Coordinates)).map fun start =>
    tryCell dictionary b rack start)

/-- `Controller::candidate_plays`.  When the rack holds letterless tiles the
source recurses on racks with the blanks filled in; every such filled rack
has zero letterless tiles, so the recursive call always lands in the
blank-free search, which is what the branches below call directly.  With one
blank, all 26 letters are tried; with two or more, all letters beyond the
last two are pre-filled from `BLANK_FILLERS` and the last two range over all
26 × 26 pairs.  The `fill_blanks` calls cannot panic here because the filler
sequence length always equals the letterless count. -/
def candidate_plays (dictionary : List String) (b : GameBoard)
    (rack : List Tile) : Option (List Candidate) :=
  if rack.any (fun t => t.is_letterless) then
    if countLetterless rack = 1 then
      collectSteps (lettersAZ.map fun ch =>
        match fill_blanks rack [ch] with
        | none => none
        | some filled => candidatePlaysNoBlanks dictionary b filled)
    else
      collectSteps (lettersAZ.flatMap fun ch1 => lettersAZ.map fun ch2 =>
        match fill_blanks rack
            (((List.range (countLetterless rack - 2)).map fun i =>
              blankFillers.getD (i % blankFillers.length) 'S') ++ [ch1, ch2]) with
        | none => none
        | some filled => candidatePlaysNoBlanks dictionary b filled)
  else candidatePlaysNoBlanks dictionary b rack

/-! Concrete boards, racks and placements used to instantiate the theorems
below. -/

/-- An empty board row of `n` cells. -/
def emptyRow (n : Nat) : List (Option Tile) := List.replicate n none

/-- A modifier row of `n` unit modifiers. -/
def unitModifierRow (n : Nat) : List Modifier := List.replicate n ⟨1, 1⟩

/-- A 1 × 4 board whose only fixed tile is an `S` of value 1 at `(0,3)`. -/
def boardRowS : GameBoard :=
  { rows := 1, columns := 4,
    board_tiles := [[none, none, none, some ⟨some 'S', 1, false⟩]],
    modifiers := [unitModifierRow 4] }

/-- `C`, `A`, `T` (values 3, 1, 1) placed on `(0,0)`–`(0,2)`. -/
def placementCAT : List PlayedTile :=
  [⟨⟨0, 0⟩, ⟨some 'C', 3, false⟩⟩, ⟨⟨0, 1⟩, ⟨some 'A', 1, false⟩⟩,
   ⟨⟨0, 2⟩, ⟨some 'T', 1, false⟩⟩]

/-- An empty 3 × 1 board. -/
def boardCol3 : GameBoard :=
  { rows := 3, columns := 1,
    board_tiles := [emptyRow 1, emptyRow 1, emptyRow 1],
    modifiers := [unitModifierRow 1, unitModifierRow 1, unitModifierRow 1] }

/-- `A` then `B` downward from `(0,0)`. -/
def placementAB : List PlayedTile :=
  [⟨⟨0, 0⟩, ⟨some 'A', 1, false⟩⟩, ⟨⟨1, 0⟩, ⟨some 'B', 2, false⟩⟩]

/-- The same two tiles in the reverse order. -/
def placementBA : List PlayedTile :=
  [⟨⟨1, 0⟩, ⟨some 'B', 2, false⟩⟩, ⟨⟨0, 0⟩, ⟨some 'A', 1, false⟩⟩]

/-- An empty 1 × 4 board. -/
def boardRow4 : GameBoard :=
  { rows := 1, columns := 4, board_tiles := [emptyRow 4], modifiers := [unitModifierRow 4] }

/-- Four tiles placed left to right on the 1 × 4 board. -/
def placementABCD : List PlayedTile :=
  [⟨⟨0, 0⟩, ⟨some 'A', 1, false⟩⟩, ⟨⟨0, 1⟩, ⟨some 'B', 2, false⟩⟩,
   ⟨⟨0, 2⟩, ⟨some 'C', 3, false⟩⟩, ⟨⟨0, 3⟩, ⟨some 'D', 4, false⟩⟩]

/-- The same four tiles with the middle two exchanged (first and last kept). -/
def placementACBD : List PlayedTile :=
  [⟨⟨0, 0⟩, ⟨some 'A', 1, false⟩⟩, ⟨⟨0, 2⟩, ⟨some 'C', 3, false⟩⟩,
   ⟨⟨0, 1⟩, ⟨some 'B', 2, false⟩⟩, ⟨⟨0, 3⟩, ⟨some 'D', 4, false⟩⟩]

/-- An empty 1 × 3 board. -/
def boardRow3 : GameBoard :=
  { rows := 1, columns := 3, board_tiles := [emptyRow 3], modifiers := [unitModifierRow 3] }

/-- A rack holding lower-case `c`, `a`, `t`. -/
def rackLowerCat : List Tile :=
  [⟨some 'c', 3, false⟩, ⟨some 'a', 1, false⟩, ⟨some 't', 1, false⟩]

/-- Lower-case `cat` placed on `(0,0)`–`(0,2)`. -/
def placementLowerCat : List PlayedTile :=
  [⟨⟨0, 0⟩, ⟨some 'c', 3, false⟩⟩, ⟨⟨0, 1⟩, ⟨some 'a', 1, false⟩⟩,
   ⟨⟨0, 2⟩, ⟨some 't', 1, false⟩⟩]

/-- An empty 1 × 1 board (its center is its single cell). -/
def boardOne : GameBoard :=
  { rows := 1, columns := 1, board_tiles := [emptyRow 1], modifiers := [unitModifierRow 1] }

/-- The single-cell rack and placement for the 1 × 1 board. -/
def rackA : List Tile := [⟨some 'A', 1, false⟩]

/-- `A` placed on the single cell `(0,0)`. -/
def placementA : List PlayedTile := [⟨⟨0, 0⟩, ⟨some 'A', 1, false⟩⟩]

/-- The result of the candidate search on the 1 × 1 board with rack `A` and
dictionary line `a`: the single legal play is found once per axis. -/
def resultOne : List Candidate := [(placementA, 1), (placementA, 1)]

/-- A 1 × 1 board whose single cell is occupied. -/
def boardOccupied : GameBoard :=
  { rows := 1, columns := 1,
    board_tiles := [[some ⟨some 'Q', 10, false⟩]],
    modifiers := [unitModifierRow 1] }

/-- A rack of one blank (letterless) tile followed by a lettered tile. -/
def rackBlankX : List Tile := [⟨none, 0, true⟩, ⟨some 'X', 8, false⟩]

/-- A one-word dictionary, already upper-cased. -/
def dictUpperA : List String := ["A"]

/-- The lines of a one-word dictionary file. -/
def dictLowerA : List String := ["a"]

/-- Numeric key of the Rust `Option<char>` order (`None` below every
letter). -/
def optCharKey : Option Char → Nat
  | none => 0
  | some c => c.toNat + 1

/-- Numeric key of the Rust `bool` order (`false < true`). -/
def boolKey : Bool → Nat
  | false => 0
  | true => 1

/-! Helper lemmas. -/

theorem optCharLtB_iff_key {o p : Option Char} :
    optCharLtB o p = true ↔ optCharKey o < optCharKey p := by
  cases o <;> cases p <;> simp [optCharLtB, optCharKey]

theorem optCharKey_inj {o p : Option Char} (h : optCharKey o = optCharKey p) : o = p := by
  cases o <;> cases p <;> simp [optCharKey] at h ⊢
  exact Char.eq_of_val_eq (UInt32.ext h)

theorem boolKey_lt_iff {a b : Bool} : boolKey a < boolKey b ↔ a = false ∧ b = true := by
  cases a <;> cases b <;> simp [boolKey]

theorem tileLt_iff_key {a b : Tile} :
    tileLt a b = true ↔
      optCharKey a.letter < optCharKey b.letter ∨
        (optCharKey a.letter = optCharKey b.letter ∧
          (a.value < b.value ∨
            (a.value = b.value ∧ boolKey a.is_blank < boolKey b.is_blank))) := by
  constructor
  · intro h
    simp only [tileLt, Bool.or_eq_true, Bool.and_eq_true, decide_eq_true_eq] at h
    rcases h with h | ⟨hletter, h⟩
    · exact Or.inl (optCharLtB_iff_key.mp h)
    · refine Or.inr ⟨by rw [hletter], ?_⟩
      rcases h with h | ⟨hv, hb⟩
      · exact Or.inl h
      · exact Or.inr ⟨hv, boolKey_lt_iff.mpr ⟨by simpa using hb.1, hb.2⟩⟩
  · intro h
    simp only [tileLt, Bool.or_eq_true, Bool.and_eq_true, decide_eq_true_eq]
    rcases h with h | ⟨hletter, h⟩
    · exact Or.inl (optCharLtB_iff_key.mpr h)
    · refine Or.inr ⟨optCharKey_inj hletter, ?_⟩
      rcases h with h | ⟨hv, hb⟩
      · exact Or.inl h
      · exact Or.inr ⟨hv, by simp [(boolKey_lt_iff.mp hb).1], (boolKey_lt_iff.mp hb).2⟩

/-! Claim theorems. -/

/-- C3, counterexample: on lettered tiles the source order compares the value
before the blank-origin flag, not after it as the claim states.  The
non-blank value-1 `A` tile does not sort before the blank value-0 `A` tile;
the source order puts the blank value-0 tile first, while the order worded as
in the spec puts the non-blank tile first. -/
theorem spec_c3_counterexample :
    tileLtSpecWorded ⟨some 'A', 1, false⟩ ⟨some 'A', 0, true⟩ = true ∧
      tileLt ⟨some 'A', 1, false⟩ ⟨some 'A', 0, true⟩ = false ∧
      tileLt ⟨some 'A', 0, true⟩ ⟨some 'A', 1, false⟩ = true := by
  refine ⟨by decide, by decide, by decide⟩

/-- C3, amended: `tileLt` (the `derive(Ord)` order of the source: letter,
then value, then blank flag) is a strict total order in which every
letterless tile sorts before every lettered tile, and among tiles of equal
letter the order is by ascending value first and non-blank-origin before
blank-origin second. -/
theorem spec_c3_theorem :
    (∀ a : Tile, tileLt a a = false) ∧
    (∀ a b c : Tile, tileLt a b = true → tileLt b c = true → tileLt a c = true) ∧
    (∀ a b : Tile, tileLt a b = true ∨ tileLt b a = true ∨ a = b) ∧
    (∀ a b : Tile, a.letter = none → b.letter ≠ none → tileLt a b = true) ∧
    (∀ a b : Tile, a.letter = b.letter →
      (tileLt a b = true ↔
        a.value < b.value ∨ (a.value = b.value ∧ a.is_blank = false ∧ b.is_blank = true))) := by
  refine ⟨?_, ?_, ?_, ?_, ?_⟩
  · intro a
    rw [← Bool.not_eq_true]
    intro h
    rcases tileLt_iff_key.mp h with h | ⟨_, h | ⟨_, h⟩⟩ <;> omega
  · intro a b c hab hbc
    rcases tileLt_iff_key.mp hab with h1 | ⟨e1, h1⟩ <;>
      rcases tileLt_iff_key.mp hbc with h2 | ⟨e2, h2⟩
    · exact tileLt_iff_key.mpr (Or.inl (by omega))
    · exact tileLt_iff_key.mpr (Or.inl (by omega))
    · exact tileLt_iff_key.mpr (Or.inl (by omega))
    · refine tileLt_iff_key.mpr (Or.inr ⟨by omega, ?_⟩)
      rcases h1 with h1 | ⟨v1, b1⟩ <;> rcases h2 with h2 | ⟨v2, b2⟩
      · exact Or.inl (by omega)
      · exact Or.inl (by omega)
      · exact Or.inl (by omega)
      · exact Or.inr ⟨by omega, by omega⟩
  · intro a b
    rcases Nat.lt_trichotomy (optCharKey a.letter) (optCharKey b.letter) with h | h | h
    · exact Or.inl (tileLt_iff_key.mpr (Or.inl h))
    · rcases Int.lt_trichotomy a.value b.value with hv | hv | hv
      · exact Or.inl (tileLt_iff_key.mpr (Or.inr ⟨h, Or.inl hv⟩))
      · rcases Nat.lt_trichotomy (boolKey a.is_blank) (boolKey b.is_blank) with hb | hb | hb
        · exact Or.inl (tileLt_iff_key.mpr (Or.inr ⟨h, Or.inr ⟨hv, hb⟩⟩))
        · refine Or.inr (Or.inr ?_)
          have hletter := optCharKey_inj h
          have hblank : a.is_blank = b.is_blank := by
            cases ha : a.is_blank <;> cases hbb : b.is_blank <;>
              simp [ha, hbb, boolKey] at hb ⊢
          cases a; cases b
          simp_all
        · exact Or.inr (Or.inl (tileLt_iff_key.mpr (Or.inr ⟨h.symm, Or.inr ⟨hv.symm, hb⟩⟩)))
      · exact Or.inr (Or.inl (tileLt_iff_key.mpr (Or.inr ⟨h.symm, Or.inl hv⟩)))
    · exact Or.inr (Or.inl (tileLt_iff_key.mpr (Or.inl h)))
  · intro a b ha hb
    refine tileLt_iff_key.mpr (Or.inl ?_)
    rw [ha]
    cases hl : b.letter
    · exact absurd hl hb
    · simp [optCharKey]
  · intro a b hletter
    constructor
    · intro h
      rcases tileLt_iff_key.mp h with h | ⟨_, h | ⟨hv, hb⟩⟩
      · rw [hletter] at h; omega
      · exact Or.inl h
      · refine Or.inr ⟨hv, ?_⟩
        cases ha : a.is_blank <;> cases hbb : b.is_blank <;>
          simp [ha, hbb, boolKey] at hb ⊢
    · intro h
      refine tileLt_iff_key.mpr (Or.inr ⟨by rw [hletter], ?_⟩)
      rcases h with h | ⟨hv, ha, hb⟩
      · exact Or.inl h
      · exact Or.inr ⟨hv, by simp [ha, hb, boolKey]⟩

/-- C3, witness: the amended order at concrete tiles — a letterless tile
sorts before a lettered one. -/
theorem spec_c3_witness :
    tileLt ⟨none, 0, true⟩ ⟨some 'A', 0, false⟩ = true :=
  spec_c3_theorem.2.2.2.1 ⟨none, 0, true⟩ ⟨some 'A', 0, false⟩ rfl (by decide)

/-- C8: the primary axis of every single-tile placement resolves to
`Vertical` — the source compares the horizontal connected extremes but
returns `Vertical` in both branches, so the scan cannot change the
outcome. -/
theorem spec_c8_theorem (b : GameBoard) (pt : PlayedTile) :
    primary_axis b [pt] = some Axis.Vertical := by
  simp [primary_axis]

/-- C9: `primary_axis` is evaluated before the emptiness check of `score`,
and it panics on zero tiles, so `score` (and `words_created`) on an empty
placement panic rather than returning a result; the `return 0` branch of
`score` for the empty list is unreachable. -/
theorem spec_c9_theorem (b : GameBoard) :
    primary_axis b [] = none ∧ score b [] = none ∧ words_created b [] = none :=
  ⟨rfl, rfl, rfl⟩

/-- C2: evaluating the source's primary-axis scoring at a concrete
placement.  On a 1 × 4 board with a fixed `S` (value 1) at `(0,3)`, playing
`CAT` (values 3, 1, 1) on `(0,0)`–`(0,2)` forms the primary word `CATS`, yet
the source walk stops at `min_connected_position` of the last placed
coordinate and scores only 5, while the walk the claim describes — out to
`max_connected_position`, through the trailing occupied cell — scores 6. -/
theorem spec_c2_theorem :
    score boardRowS placementCAT = some 5 ∧
      words_created boardRowS placementCAT = some ["CATS"] ∧
      score_primary_axis boardRowS placementCAT Axis.Horizontal = some 5 ∧
      score_primary_axis_full_span boardRowS placementCAT Axis.Horizontal = some 6 ∧
      max_connected_position boardRowS ⟨0, 2⟩ Axis.Horizontal = ⟨0, 3⟩ ∧
      min_connected_position boardRowS ⟨0, 2⟩ Axis.Horizontal = ⟨0, 2⟩ := by
  refine ⟨by decide, by decide, by decide, by decide, by decide, by decide⟩

/-- C1, counterexample: `score` is not invariant under reordering.  The
two-tile vertical placement `A`,`B` on the empty 3 × 1 board scores 3 in
top-to-bottom order, but presented bottom-to-top — the same set of
coordinates and tiles on the same axis — the primary walk starts at the
bottom tile, never meets its upper bound, runs off the board and panics. -/
theorem spec_c1_counterexample :
    List.Perm placementBA placementAB ∧
      score boardCol3 placementAB = some 3 ∧
      score boardCol3 placementBA = none := by
  refine ⟨by decide, by decide, by decide⟩

theorem lookupCell_ok_iff {b : GameBoard} {c : Coordinates} {cell : Option Tile} :
    lookupCell b c = .ok cell ↔ cellAtC b c = some cell := by
  unfold lookupCell cellAtC
  split
  · simp
  · split <;> simp_all

theorem lookupCell_error_cases {b : GameBoard} {c : Coordinates} {e : BuildErr}
    (h : lookupCell b c = .error e) : e = .rowLimit ∨ e = .columnLimit := by
  unfold lookupCell at h
  split at h
  · simp only [Except.error.injEq] at h
    exact Or.inl h.symm
  · split at h
    · simp only [Except.error.injEq] at h
      exact Or.inr h.symm
    · simp at h

theorem skipOccupied_ne_startOccupied {b : GameBoard} {d : Int × Int} :
    ∀ fuel pos, skipOccupied b d fuel pos ≠ .error .startOccupied := by
  intro fuel
  induction fuel with
  | zero => intro pos h; simp [skipOccupied] at h
  | succ n ih =>
    intro pos h
    unfold skipOccupied at h
    split at h
    · rename_i e heq
      simp only [Except.error.injEq] at h
      rcases lookupCell_error_cases heq with he | he <;> simp [h] at he
    · simp at h
    · exact ih (stepC pos d) h

theorem buildLoop_notFirst_ne_startOccupied {b : GameBoard} {d : Int × Int} {sf : Nat} :
    ∀ tiles pos, buildLoop b d sf tiles pos false ≠ .error .startOccupied := by
  intro tiles
  induction tiles with
  | nil => intro pos h; simp [buildLoop] at h
  | cons t rest ih =>
    intro pos h
    unfold buildLoop at h
    split at h
    · rename_i e heq
      simp only [Except.error.injEq] at h
      rcases lookupCell_error_cases heq with he | he <;> simp [h] at he
    · rw [Bool.and_false, if_neg (by simp)] at h
      split at h
      · rename_i e heq
        simp only [Except.error.injEq] at h
        exact skipOccupied_ne_startOccupied sf pos (h ▸ heq)
      · split at h
        · rename_i e heq
          simp only [Except.error.injEq] at h
          exact ih _ (h ▸ heq)
        · simp at h

theorem buildLoop_ok_length {b : GameBoard} {d : Int × Int} {sf : Nat} :
    ∀ tiles pos first l, buildLoop b d sf tiles pos first = .ok l → l.length = tiles.length := by
  intro tiles
  induction tiles with
  | nil => intro pos first l h; simp [buildLoop] at h; simp [← h]
  | cons t rest ih =>
    intro pos first l h
    unfold buildLoop at h
    split at h
    · simp at h
    · split at h
      · simp at h
      · split at h
        · simp at h
        · split at h
          · simp at h
          · rename_i placed heq
            simp only [Except.ok.injEq] at h
            simp [← h, ih _ false placed heq]

/-- C7, amended: for every *nonempty* tile sequence, `build_placement`
started on an occupied start cell fails with the start-occupied condition,
and this is the only way that condition arises; with an empty tile sequence
it returns the empty placement instead of failing.  Success always places
exactly the supplied number of tiles, so whenever the walk runs past the
grid edge before all tiles are placed the result is one of the two
out-of-bounds errors (`rowLimit`/`columnLimit`), the only other error
values. -/
theorem spec_c7_theorem (b : GameBoard) (start : Coordinates) (tiles : List Tile) (axis : Axis) :
    (tiles ≠ [] → (∃ t, cellAtC b start = some (some t)) →
       build_played_tiles b start tiles axis = .error .startOccupied) ∧
    (build_played_tiles b start [] axis = .ok []) ∧
    (∀ l, build_played_tiles b start tiles axis = .ok l → l.length = tiles.length) ∧
    (build_played_tiles b start tiles axis = .error .startOccupied →
       tiles ≠ [] ∧ ∃ t, cellAtC b start = some (some t)) := by
  refine ⟨?_, rfl, ?_, ?_⟩
  · intro hne hocc
    obtain ⟨t, ht⟩ := hocc
    cases tiles with
    | nil => exact absurd rfl hne
    | cons t0 rest =>
      unfold build_played_tiles buildLoop
      rw [lookupCell_ok_iff.mpr ht]
      simp
  · intro l h
    exact buildLoop_ok_length tiles start true l h
  · intro h
    cases tiles with
    | nil => simp [build_played_tiles, buildLoop] at h
    | cons t0 rest =>
      refine ⟨by simp, ?_⟩
      unfold build_played_tiles buildLoop at h
      split at h
      · rename_i e heq
        simp only [Except.error.injEq] at h
        rcases lookupCell_error_cases heq with he | he <;> simp [h] at he
      · rename_i cell heq
        by_cases hocc : (cell.isSome && true) = true
        · obtain ⟨t, ht⟩ := Option.isSome_iff_exists.mp (by simpa using hocc)
          exact ⟨t, by rw [lookupCell_ok_iff.mp heq, ht]⟩
        · rw [if_neg hocc] at h
          exfalso
          split at h
          · rename_i e heq2
            simp only [Except.error.injEq] at h
            exact skipOccupied_ne_startOccupied (gridFuel b) start (h ▸ heq2)
          · split at h
            · rename_i e heq2
              simp only [Except.error.injEq] at h
              exact buildLoop_notFirst_ne_startOccupied rest _ (h ▸ heq2)
            · simp at h

/-- C7, counterexample: started on an occupied cell with an *empty* tile
sequence, `build_placement` does not fail at all — it returns the empty
placement — so the claim's "always fails" quantification over every tile
sequence is false. -/
theorem spec_c7_counterexample :
    cellAtC boardOccupied ⟨0, 0⟩ = some (some ⟨some 'Q', 10, false⟩) ∧
      build_played_tiles boardOccupied ⟨0, 0⟩ [] Axis.Horizontal = .ok [] := by
  refine ⟨by decide, rfl⟩

/-- C7, witness: with a nonempty tile sequence the occupied start cell does
produce the start-occupied failure. -/
theorem spec_c7_witness :
    build_played_tiles boardOccupied ⟨0, 0⟩ [⟨some 'A', 1, false⟩] Axis.Horizontal =
      .error .startOccupied :=
  (spec_c7_theorem boardOccupied ⟨0, 0⟩ [⟨some 'A', 1, false⟩] Axis.Horizontal).1
    (by decide) ⟨⟨some 'Q', 10, false⟩, by decide⟩

theorem hasFixedTile_iff {b : GameBoard} {c : Coordinates} :
    hasFixedTile b c = true ↔ ∃ t, cellAtC b c = some (some t) := by
  unfold hasFixedTile
  cases h : cellAtC b c with
  | none => simp
  | some cell => cases cell <;> simp

/-- C10: `is_connected` is a total boolean function of the board and the
placement — negative or otherwise off-grid neighbor coordinates are simply
cells without a fixed tile — and it is true exactly when some played tile
has an in-grid 4-neighbor holding a fixed tile; consequently a placement all
of whose 4-neighbors fall off the grid is reported not connected. -/
theorem spec_c10_theorem (b : GameBoard) (played_tiles : List PlayedTile) :
    (is_connected b played_tiles = true ↔
       ∃ pt ∈ played_tiles, ∃ d ∈ adjacencyDeltas,
         ∃ t, cellAtC b (stepC pt.coordinates d) = some (some t)) ∧
    ((∀ pt ∈ played_tiles, ∀ d ∈ adjacencyDeltas,
        cellAtC b (stepC pt.coordinates d) = none) →
      is_connected b played_tiles = false) := by
  have hiff : is_connected b played_tiles = true ↔
      ∃ pt ∈ played_tiles, ∃ d ∈ adjacencyDeltas,
        ∃ t, cellAtC b (stepC pt.coordinates d) = some (some t) := by
    unfold is_connected
    rw [List.any_eq_true]
    constructor
    · rintro ⟨pt, hpt, hany⟩
      rw [List.any_eq_true] at hany
      obtain ⟨d, hd, hfix⟩ := hany
      exact ⟨pt, hpt, d, hd, hasFixedTile_iff.mp hfix⟩
    · rintro ⟨pt, hpt, d, hd, t, ht⟩
      exact ⟨pt, hpt, List.any_eq_true.mpr ⟨d, hd, hasFixedTile_iff.mpr ⟨t, ht⟩⟩⟩
  refine ⟨hiff, ?_⟩
  intro hoff
  rw [← Bool.not_eq_true]
  intro htrue
  obtain ⟨pt, hpt, d, hd, t, ht⟩ := hiff.mp htrue
  rw [hoff pt hpt d hd] at ht
  cases ht

/-- C10, witness: on the 1 × 1 board the single placed tile's neighbors all
fall off the grid, so the placement is not connected. -/
theorem spec_c10_witness : is_connected boardOne placementA = false :=
  (spec_c10_theorem boardOne placementA).2 (by decide)

theorem countLetterless_cons {t : Tile} {rest : List Tile} :
    countLetterless (t :: rest) =
      (if t.is_letterless = true then 1 else 0) + countLetterless rest := by
  simp only [countLetterless, List.filter]
  split <;> simp_all <;> omega

theorem fillBlanksGo_length : ∀ (tiles : List Tile) (fills : List Char),
    (fillBlanksGo tiles fills).length = tiles.length := by
  intro tiles
  induction tiles with
  | nil => intro fills; simp [fillBlanksGo]
  | cons t rest ih =>
    intro fills
    unfold fillBlanksGo
    by_cases h : t.is_letterless = true
    · rw [if_pos h]
      cases fills <;> simp [ih]
    · rw [if_neg h]
      simp [ih]

theorem fillBlanksGo_count_zero : ∀ (tiles : List Tile) (fills : List Char),
    countLetterless tiles ≤ fills.length →
    countLetterless (fillBlanksGo tiles fills) = 0 := by
  intro tiles
  induction tiles with
  | nil => intro fills _; simp [fillBlanksGo, countLetterless]
  | cons t rest ih =>
    intro fills hle
    rw [countLetterless_cons] at hle
    unfold fillBlanksGo
    by_cases h : t.is_letterless = true
    · rw [if_pos h]
      cases fills with
      | nil => rw [if_pos h] at hle; simp at hle
      | cons f fs =>
        rw [countLetterless_cons]
        rw [if_pos h] at hle
        simp only [List.length_cons] at hle
        simp [Tile.is_letterless, ih fs (by omega)]
    · rw [if_neg h]
      rw [countLetterless_cons, if_neg h]
      rw [if_neg h] at hle
      simp [ih fills (by omega)]

theorem fillBlanksGo_get : ∀ (tiles : List Tile) (fills : List Char) (i : Nat) (t : Tile),
    countLetterless tiles ≤ fills.length →
    tiles.get? i = some t →
    (t.is_letterless = true →
      (fillBlanksGo tiles fills).get? i =
        some ⟨some (fills.getD (countLetterless (tiles.take i)) 'A'), t.value, t.is_blank⟩) ∧
    (t.is_letterless = false → (fillBlanksGo tiles fills).get? i = some t) := by
  intro tiles
  induction tiles with
  | nil => intro fills i t _ hget; simp at hget
  | cons t0 rest ih =>
    intro fills i t hle hget
    rw [countLetterless_cons] at hle
    cases i with
    | zero =>
      simp only [List.get?] at hget
      injection hget with hget
      subst hget
      unfold fillBlanksGo
      by_cases h : t0.is_letterless = true
      · rw [if_pos h] at hle ⊢
        cases fills with
        | nil => simp at hle
        | cons f fs =>
          constructor
          · intro _
            simp [countLetterless, List.getD]
          · intro hfalse
            rw [h] at hfalse
            cases hfalse
      · rw [if_neg h] at hle ⊢
        constructor
        · intro htrue
          exact absurd htrue h
        · intro _
          simp
    | succ i =>
      simp only [List.get?] at hget
      unfold fillBlanksGo
      by_cases h : t0.is_letterless = true
      · rw [if_pos h] at hle ⊢
        cases fills with
        | nil => simp at hle
        | cons f fs =>
          simp only [List.length_cons] at hle
          have hrec := ih fs i t (by omega) hget
          constructor
          · intro htrue
            have hh := hrec.1 htrue
            simp only [List.take, List.get?]
            rw [countLetterless_cons, if_pos h]
            simpa [List.getD_cons_succ, Nat.add_comm] using hh
          · intro hfalse
            simpa using hrec.2 hfalse
      · rw [if_neg h] at hle ⊢
        have hrec := ih fills i t (by omega) hget
        constructor
        · intro htrue
          have hh := hrec.1 htrue
          simp only [List.take, List.get?]
          rw [countLetterless_cons, if_neg h]
          simpa using hh
        · intro hfalse
          simpa using hrec.2 hfalse

/-- C6: for every rack and every filler sequence whose length equals the
rack's count of letterless tiles, `fill_blanks` succeeds and returns a rack
of the same length with zero letterless tiles, in which each formerly
letterless tile, in left-to-right order, carries the corresponding supplied
letter while keeping its blank-origin flag and value, and every other tile
is unchanged in its original position; when the lengths differ,
`fill_blanks` fails. -/
theorem spec_c6_theorem (tiles : List Tile) (fills : List Char) :
    (fills.length = countLetterless tiles →
      fill_blanks tiles fills = some (fillBlanksGo tiles fills) ∧
      (fillBlanksGo tiles fills).length = tiles.length ∧
      countLetterless (fillBlanksGo tiles fills) = 0 ∧
      ∀ i t, tiles.get? i = some t →
        (t.is_letterless = true →
          (fillBlanksGo tiles fills).get? i =
            some ⟨some (fills.getD (countLetterless (tiles.take i)) 'A'),
                  t.value, t.is_blank⟩) ∧
        (t.is_letterless = false → (fillBlanksGo tiles fills).get? i = some t)) ∧
    (fills.length ≠ countLetterless tiles → fill_blanks tiles fills = none) := by
  constructor
  · intro hlen
    refine ⟨by unfold fill_blanks; rw [if_neg (by omega)], fillBlanksGo_length tiles fills,
      fillBlanksGo_count_zero tiles fills (by omega), ?_⟩
    intro i t hget
    exact fillBlanksGo_get tiles fills i t (by omega) hget
  · intro hne
    unfold fill_blanks
    rw [if_pos hne]

/-- C6, witness: filling the single blank of a concrete rack with `Q`. -/
theorem spec_c6_witness :
    fill_blanks rackBlankX ['Q'] = some [⟨some 'Q', 0, true⟩, ⟨some 'X', 8, false⟩] := by
  have h := (spec_c6_theorem rackBlankX ['Q']).1 (by decide)
  exact h.1.trans (by decide)

theorem sumSecondary_perm {b : GameBoard} {axis : Axis} {l1 l2 : List PlayedTile}
    (h : l1.Perm l2) : sumSecondary b axis l1 = sumSecondary b axis l2 := by
  induction h with
  | nil => rfl
  | cons x h ih => simp only [sumSecondary]; rw [ih]
  | swap x y l =>
    cases hx : score_secondary_axis b x axis <;>
      cases hy : score_secondary_axis b y axis <;>
      cases hl : sumSecondary b axis l <;>
      simp [sumSecondary, hx, hy, hl] <;> omega
  | trans h1 h2 ih1 ih2 => exact ih1.trans ih2

theorem mapGet_eq_some_iff {l : List PlayedTile} {c : Coordinates} {pt : PlayedTile}
    (hnd : (l.map fun q => q.coordinates).Nodup) :
    mapGet l c = some pt ↔ pt ∈ l ∧ pt.coordinates = c := by
  unfold mapGet
  constructor
  · intro h
    have hp := List.find?_some h
    have hm := List.mem_of_find?_eq_some h
    have hpc : pt.coordinates = c := of_decide_eq_true hp
    exact ⟨List.mem_reverse.mp hm, hpc⟩
  · rintro ⟨hmem, hc⟩
    cases hfind : l.reverse.find? fun q => decide (q.coordinates = c) with
    | none =>
      exfalso
      have := List.find?_eq_none.mp hfind pt (List.mem_reverse.mpr hmem)
      simp [hc] at this
    | some q =>
      have hp0 := List.find?_some hfind
      have hp : q.coordinates = c := of_decide_eq_true hp0
      have hm := List.mem_reverse.mp (List.mem_of_find?_eq_some hfind)
      have : q = pt :=
        List.inj_on_of_nodup_map hnd hm hmem (by rw [hp, hc])
      rw [this]

theorem mapGet_eq_none_iff {l : List PlayedTile} {c : Coordinates} :
    mapGet l c = none ↔ ∀ pt ∈ l, pt.coordinates ≠ c := by
  unfold mapGet
  rw [List.find?_eq_none]
  constructor
  · intro h pt hpt
    have := h pt (List.mem_reverse.mpr hpt)
    simpa using this
  · intro h pt hpt
    have := h pt (List.mem_reverse.mp hpt)
    simpa using this

theorem mapGet_congr {l1 l2 : List PlayedTile} (hperm : l1.Perm l2)
    (hnd : (l1.map fun q => q.coordinates).Nodup) : mapGet l1 = mapGet l2 := by
  have hnd2 : (l2.map fun q => q.coordinates).Nodup :=
    ((hperm.map _).nodup_iff).mp hnd
  funext c
  cases h1 : mapGet l1 c with
  | none =>
    symm
    rw [mapGet_eq_none_iff]
    intro pt hpt
    exact mapGet_eq_none_iff.mp h1 pt (hperm.mem_iff.mpr hpt)
  | some pt =>
    obtain ⟨hm, hc⟩ := (mapGet_eq_some_iff hnd).mp h1
    exact ((mapGet_eq_some_iff hnd2).mpr ⟨hperm.mem_iff.mp hm, hc⟩).symm

theorem primary_axis_congr (b : GameBoard) {l1 l2 : List PlayedTile}
    (hperm : l1.Perm l2) (hhead : l1.head? = l2.head?)
    (hnd : (l1.map fun q => q.coordinates).Nodup)
    (haxis : (∀ x ∈ l1, ∀ y ∈ l1, x.coordinates.row = y.coordinates.row) ∨
             (∀ x ∈ l1, ∀ y ∈ l1, x.coordinates.column = y.coordinates.column)) :
    primary_axis b l1 = primary_axis b l2 := by
  have hlen := hperm.length_eq
  cases l1 with
  | nil =>
    cases l2 with
    | nil => rfl
    | cons a2 t2 => simp at hlen
  | cons a1 t1 =>
    cases l2 with
    | nil => simp at hlen
    | cons a2 t2 =>
      have ha : a1 = a2 := by simpa using hhead
      subst ha
      cases t1 with
      | nil =>
        cases t2 with
        | nil => rfl
        | cons b2 u2 => simp at hlen
      | cons b1 u1 =>
        cases t2 with
        | nil => simp at hlen
        | cons b2 u2 =>
          simp only [primary_axis, Option.some.injEq]
          have hmem1 : b1 ∈ a1 :: b1 :: u1 := by simp
          have hmem2 : b2 ∈ a1 :: b1 :: u1 :=
            hperm.mem_iff.mpr (by simp)
          have hself : a1 ∈ a1 :: b1 :: u1 := by simp
          have hcoordExt : ∀ p q : Coordinates, p.row = q.row → p.column = q.column → p = q := by
            rintro ⟨pr, pc⟩ ⟨qr, qc⟩ hr hc
            simp_all
          rcases haxis with hrow | hcol
          · rw [if_pos (hrow a1 hself b1 hmem1), if_pos (hrow a1 hself b2 hmem2)]
          · have hne1 : a1.coordinates ≠ b1.coordinates := by
              have := hnd
              simp only [List.map, List.nodup_cons, List.mem_cons, List.mem_map] at this
              intro hcontra
              exact this.1 (Or.inl hcontra)
            have hnd2 : ((a1 :: b2 :: u2).map fun q => q.coordinates).Nodup :=
              ((hperm.map _).nodup_iff).mp hnd
            have hne2 : a1.coordinates ≠ b2.coordinates := by
              simp only [List.map, List.nodup_cons, List.mem_cons, List.mem_map] at hnd2
              intro hcontra
              exact hnd2.1 (Or.inl hcontra)
            have hr1 : a1.coordinates.row ≠ b1.coordinates.row := fun hr =>
              hne1 (hcoordExt _ _ hr (hcol a1 hself b1 hmem1))
            have hr2 : a1.coordinates.row ≠ b2.coordinates.row := fun hr =>
              hne2 (hcoordExt _ _ hr (hcol a1 hself b2 hmem2))
            rw [if_neg hr1, if_neg hr2]

theorem score_primary_congr {b : GameBoard} {l1 l2 : List PlayedTile} {axis : Axis}
    (hlen : l1.length = l2.length) (hhead : l1.head? = l2.head?)
    (hlast : l1.getLast? = l2.getLast?) (hmap : mapGet l1 = mapGet l2) :
    score_primary_axis b l1 axis = score_primary_axis b l2 axis := by
  unfold score_primary_axis
  rw [hlen, hhead, hlast, hmap]

/-- C1, amended: `score` is unchanged by exactly those reorderings that keep
the first and the last element of the `PlacedTile` sequence in place (for a
valid placement: pairwise distinct coordinates, all on one row or all in one
column).  It is *not* invariant under arbitrary permutations — the walk
bounds come from the first and last list entries (see the
counterexample). -/
theorem spec_c1_theorem (b : GameBoard) (l1 l2 : List PlayedTile)
    (hperm : l1.Perm l2) (hhead : l1.head? = l2.head?)
    (hlast : l1.getLast? = l2.getLast?)
    (hnd : (l1.map fun q => q.coordinates).Nodup)
    (haxis : (∀ x ∈ l1, ∀ y ∈ l1, x.coordinates.row = y.coordinates.row) ∨
             (∀ x ∈ l1, ∀ y ∈ l1, x.coordinates.column = y.coordinates.column)) :
    score b l1 = score b l2 := by
  have hlen := hperm.length_eq
  have hpax := primary_axis_congr b hperm hhead hnd haxis
  have hmap := mapGet_congr hperm hnd
  unfold score
  rw [hpax]
  cases hp : primary_axis b l2 with
  | none => rfl
  | some pax =>
    dsimp only
    rw [hlen, sumSecondary_perm hperm, score_primary_congr hlen hhead hlast hmap]

/-- C1, witness: exchanging the two middle tiles of a four-tile row play
(first and last kept in place) leaves the score unchanged. -/
theorem spec_c1_witness : score boardRow4 placementABCD = score boardRow4 placementACBD :=
  spec_c1_theorem boardRow4 placementABCD placementACBD (by decide) (by decide)
    (by decide) (by decide) (Or.inl (by decide))

theorem collectSteps_mem :
    ∀ (steps : List (Option (List Candidate))) (res : List Candidate) (x : Candidate),
    collectSteps steps = some res → x ∈ res →
    ∃ st ∈ steps, ∃ lx, st = some lx ∧ x ∈ lx := by
  intro steps
  induction steps with
  | nil =>
    intro res x hres hx
    simp only [collectSteps, Option.some.injEq] at hres
    subst hres
    simp at hx
  | cons st rest ih =>
    intro res x hres hx
    unfold collectSteps at hres
    cases st with
    | none => exact absurd hres (by simp)
    | some here =>
      dsimp only at hres
      split at hres
      · exact absurd hres (by simp)
      · rename_i more hmore
        injection hres with hres
        subst hres
        rcases List.mem_append.mp hx with hx1 | hx2
        · exact ⟨some here, List.mem_cons_self _ rest, here, rfl, hx1⟩
        · obtain ⟨st2, hst2, lx, hlx, hxlx⟩ := ih more x hmore hx2
          exact ⟨st2, List.mem_cons_of_mem _ hst2, lx, hlx, hxlx⟩

theorem evalOrdered_mem {dictionary : List String} {b : GameBoard} {start : Coordinates}
    {axis : Axis} {tiles : List Tile} {lx : List Candidate} {x : Candidate}
    (h : evalOrdered dictionary b start axis tiles = some lx) (hx : x ∈ lx) :
    build_played_tiles b start tiles axis = .ok x.1 ∧
    (∃ ws, words_created b x.1 = some ws ∧
      ws.all (fun w => dictionary.contains w) = true) ∧
    score b x.1 = some x.2 := by
  unfold evalOrdered at h
  split at h
  · injection h with h
    subst h
    simp at hx
  · rename_i pl hbuild
    split at h
    · exact absurd h (by simp)
    · rename_i ws hws
      split at h
      · rename_i hall
        split at h
        · exact absurd h (by simp)
        · rename_i s hs
          injection h with h
          subst h
          rw [List.mem_singleton] at hx
          subst hx
          exact ⟨hbuild, ⟨ws, hws, hall⟩, hs⟩
      · injection h with h
        subst h
        simp at hx

theorem next_permutation_length {p q : List Nat} (h : next_permutation p = some q) :
    q.length = p.length := by
  unfold next_permutation at h
  split at h
  · exact absurd h (by simp)
  · rename_i first heq
    injection h with h
    subst h
    simp only [List.length_append, List.length_take, List.length_reverse, List.length_drop,
      listSwap, List.length_set]
    omega

theorem permLoop_mem {dictionary : List String} {b : GameBoard} {start : Coordinates}
    {axis : Axis} {rack : List Tile} {sel : List Nat} {L : Nat} :
    ∀ (fuel : Nat) (ordOpt : Option (List Nat)) (res : List Candidate) (x : Candidate),
    (∀ o, ordOpt = some o → o.length = L) →
    permLoop dictionary b start axis rack sel fuel ordOpt = some res → x ∈ res →
    ∃ tiles : List Tile, tiles.length = L ∧
      build_played_tiles b start tiles axis = .ok x.1 ∧
      (∃ ws, words_created b x.1 = some ws ∧
        ws.all (fun w => dictionary.contains w) = true) ∧
      score b x.1 = some x.2 := by
  intro fuel
  induction fuel with
  | zero =>
    intro ordOpt res x hL hres hx
    cases ordOpt <;>
      · simp only [permLoop, Option.some.injEq] at hres
        subst hres
        simp at hx
  | succ f ih =>
    intro ordOpt res x hL hres hx
    cases ordOpt with
    | none =>
      simp only [permLoop, Option.some.injEq] at hres
      subst hres
      simp at hx
    | some ord =>
      unfold permLoop at hres
      split at hres
      · exact absurd hres (by simp)
      · rename_i here heval
        split at hres
        · exact absurd hres (by simp)
        · rename_i more hmore
          injection hres with hres
          subst hres
          rcases List.mem_append.mp hx with hx1 | hx2
          · refine ⟨ord.map fun idx => rack.getD (sel.getD idx 0) defaultTile, ?_,
              evalOrdered_mem heval hx1⟩
            simp [hL ord rfl]
          · exact ih (next_permutation ord) more x
              (fun o ho => (next_permutation_length ho).trans (hL ord rfl)) hmore hx2

theorem combLoop_mem {dictionary : List String} {b : GameBoard} {start : Coordinates}
    {axis : Axis} {rack : List Tile} {num_tiles : Nat} :
    ∀ (fuel : Nat) (selOpt : Option (List Nat)) (res : List Candidate) (x : Candidate),
    combLoop dictionary b start axis rack num_tiles fuel selOpt = some res → x ∈ res →
    ∃ tiles : List Tile, tiles.length = num_tiles ∧
      build_played_tiles b start tiles axis = .ok x.1 ∧
      (∃ ws, words_created b x.1 = some ws ∧
        ws.all (fun w => dictionary.contains w) = true) ∧
      score b x.1 = some x.2 := by
  intro fuel
  induction fuel with
  | zero =>
    intro selOpt res x hres hx
    cases selOpt <;>
      · simp only [combLoop, Option.some.injEq] at hres
        subst hres
        simp at hx
  | succ f ih =>
    intro selOpt res x hres hx
    cases selOpt with
    | none =>
      simp only [combLoop, Option.some.injEq] at hres
      subst hres
      simp at hx
    | some sel =>
      unfold combLoop at hres
      split at hres
      · exact absurd hres (by simp)
      · rename_i here hperm
        split at hres
        · exact absurd hres (by simp)
        · rename_i more hmore
          injection hres with hres
          subst hres
          rcases List.mem_append.mp hx with hx1 | hx2
          · exact permLoop_mem (Nat.factorial num_tiles + 1) (some (List.range num_tiles))
              here x (fun o ho => by injection ho with ho; subst ho; simp) hperm hx1
          · exact ih (next_combination sel rack.length) more x hmore hx2

theorem buildLoop_ok_coords {b : GameBoard} {d : Int × Int} {sf : Nat} :
    ∀ (tiles1 tiles2 : List Tile) (pos : Coordinates) (first : Bool)
      (l1 l2 : List PlayedTile),
    tiles1.length = tiles2.length →
    buildLoop b d sf tiles1 pos first = .ok l1 →
    buildLoop b d sf tiles2 pos first = .ok l2 →
    l1.map (fun pt => pt.coordinates) = l2.map (fun pt => pt.coordinates) := by
  intro tiles1
  induction tiles1 with
  | nil =>
    intro tiles2 pos first l1 l2 hlen h1 h2
    cases tiles2 with
    | nil =>
      simp only [buildLoop, Except.ok.injEq] at h1 h2
      rw [← h1, ← h2]
    | cons t2 r2 => simp at hlen
  | cons t rest ih =>
    intro tiles2 pos first l1 l2 hlen h1 h2
    cases tiles2 with
    | nil => simp at hlen
    | cons t2 rest2 =>
      simp only [List.length_cons] at hlen
      unfold buildLoop at h1 h2
      split at h1
      · exact absurd h1 (by simp)
      · rename_i cell heq
        rw [heq] at h2
        dsimp only at h2
        by_cases hocc : (cell.isSome && first) = true
        · rw [if_pos hocc] at h1
          exact absurd h1 (by simp)
        · rw [if_neg hocc] at h1 h2
          split at h1
          · exact absurd h1 (by simp)
          · rename_i freePos hskip
            rw [hskip] at h2
            dsimp only at h2
            split at h1
            · exact absurd h1 (by simp)
            · rename_i placed1 hrec1
              split at h2
              · exact absurd h2 (by simp)
              · rename_i placed2 hrec2
                injection h1 with h1
                injection h2 with h2
                subst h1
                subst h2
                simp only [List.map]
                rw [ih rest2 (stepC freePos d) false placed1 placed2 (by omega) hrec1 hrec2]

theorem build_played_tiles_ok_coords {b : GameBoard} {start : Coordinates} {axis : Axis}
    {tiles1 tiles2 : List Tile} {l1 l2 : List PlayedTile}
    (hlen : tiles1.length = tiles2.length)
    (h1 : build_played_tiles b start tiles1 axis = .ok l1)
    (h2 : build_played_tiles b start tiles2 axis = .ok l2) :
    l1.map (fun pt => pt.coordinates) = l2.map (fun pt => pt.coordinates) :=
  buildLoop_ok_coords tiles1 tiles2 start true l1 l2 hlen h1 h2

theorem is_connected_coords {b : GameBoard} :
    ∀ {l1 l2 : List PlayedTile},
    l1.map (fun pt => pt.coordinates) = l2.map (fun pt => pt.coordinates) →
    is_connected b l1 = is_connected b l2 := by
  intro l1
  induction l1 with
  | nil =>
    intro l2 h
    have : l2 = [] := by
      cases l2 with
      | nil => rfl
      | cons p q => simp at h
    rw [this]
  | cons pt rest ih =>
    intro l2 h
    cases l2 with
    | nil => simp at h
    | cons pt2 rest2 =>
      simp only [List.map, List.cons.injEq] at h
      obtain ⟨hc, hrest⟩ := h
      have hr := ih hrest
      simp only [is_connected, List.any_cons] at hr ⊢
      rw [hc, hr]

theorem is_through_center_coords {b : GameBoard} :
    ∀ {l1 l2 : List PlayedTile},
    l1.map (fun pt => pt.coordinates) = l2.map (fun pt => pt.coordinates) →
    is_through_center b l1 = is_through_center b l2 := by
  intro l1
  induction l1 with
  | nil =>
    intro l2 h
    have : l2 = [] := by
      cases l2 with
      | nil => rfl
      | cons p q => simp at h
    rw [this]
  | cons pt rest ih =>
    intro l2 h
    cases l2 with
    | nil => simp at h
    | cons pt2 rest2 =>
      simp only [List.map, List.cons.injEq] at h
      obtain ⟨hc, hrest⟩ := h
      have hr := ih hrest
      simp only [is_through_center, List.any_cons] at hr ⊢
      rw [hc, hr]

theorem tryLength_mem {dictionary : List String} {b : GameBoard} {rack : List Tile}
    {start : Coordinates} {axis : Axis} {num_tiles : Nat} {res : List Candidate}
    {x : Candidate}
    (h : tryLength dictionary b rack start axis num_tiles = some res) (hx : x ∈ res) :
    (is_connected b x.1 || is_through_center b x.1) = true ∧
    (∃ ws, words_created b x.1 = some ws ∧
      ws.all (fun w => dictionary.contains w) = true) ∧
    score b x.1 = some x.2 := by
  unfold tryLength at h
  split at h
  · injection h with h
    subst h
    simp at hx
  · rename_i fpl hfeas
    split at h
    · injection h with h
      subst h
      simp at hx
    · rename_i hguard
      obtain ⟨tiles, hlen, hbuild, hwords, hscore⟩ :=
        combLoop_mem (2 ^ rack.length + 1) (some (List.range num_tiles)) res x h hx
      refine ⟨?_, hwords, hscore⟩
      have hflen : ((List.range num_tiles).map fun i => rack.getD i defaultTile).length
          = num_tiles := by simp
      have hcoords := build_played_tiles_ok_coords (by rw [hlen, hflen]) hbuild hfeas
      rw [is_connected_coords hcoords, is_through_center_coords hcoords]
      cases hcon : is_connected b fpl <;> cases hthr : is_through_center b fpl <;>
        simp_all

theorem tryCell_mem {dictionary : List String} {b : GameBoard} {rack : List Tile}
    {start : Coordinates} {res : List Candidate} {x : Candidate}
    (h : tryCell dictionary b rack start = some res) (hx : x ∈ res) :
    (is_connected b x.1 || is_through_center b x.1) = true ∧
    (∃ ws, words_created b x.1 = some ws ∧
      ws.all (fun w => dictionary.contains w) = true) ∧
    score b x.1 = some x.2 := by
  unfold tryCell at h
  split at h
  · injection h with h
    subst h
    simp at hx
  · obtain ⟨st, hst, lx, hlx, hxlx⟩ := collectSteps_mem _ _ _ h hx
    simp only [List.mem_map] at hst
    obtain ⟨axis, _, hstdef⟩ := hst
    rw [← hstdef] at hlx
    obtain ⟨st2, hst2, lx2, hlx2, hxlx2⟩ := collectSteps_mem _ _ _ hlx hxlx
    simp only [List.mem_map] at hst2
    obtain ⟨num_tiles, _, hst2def⟩ := hst2
    rw [← hst2def] at hlx2
    exact tryLength_mem hlx2 hxlx2

theorem candidatePlaysNoBlanks_mem {dictionary : List String} {b : GameBoard}
    {rack : List Tile} {res : List Candidate} {x : Candidate}
    (h : candidatePlaysNoBlanks dictionary b rack = some res) (hx : x ∈ res) :
    (is_connected b x.1 || is_through_center b x.1) = true ∧
    (∃ ws, words_created b x.1 = some ws ∧
      ws.all (fun w => dictionary.contains w) = true) ∧
    score b x.1 = some x.2 := by
  unfold candidatePlaysNoBlanks at h
  obtain ⟨st, hst, lx, hlx, hxlx⟩ := collectSteps_mem _ _ _ h hx
  simp only [List.mem_map] at hst
  obtain ⟨start, _, hstdef⟩ := hst
  rw [← hstdef] at hlx
  exact tryCell_mem hlx hxlx

theorem candidate_plays_mem {dictionary : List String} {b : GameBoard}
    {rack : List Tile} {res : List Candidate} {x : Candidate}
    (h : candidate_plays dictionary b rack = some res) (hx : x ∈ res) :
    (is_connected b x.1 || is_through_center b x.1) = true ∧
    (∃ ws, words_created b x.1 = some ws ∧
      ws.all (fun w => dictionary.contains w) = true) ∧
    score b x.1 = some x.2 := by
  unfold candidate_plays at h
  split at h
  · split at h
    · obtain ⟨st, hst, lx, hlx, hxlx⟩ := collectSteps_mem _ _ _ h hx
      simp only [List.mem_map] at hst
      obtain ⟨ch, _, hstdef⟩ := hst
      rw [← hstdef] at hlx
      split at hlx
      · exact absurd hlx (by simp)
      · exact candidatePlaysNoBlanks_mem hlx hxlx
    · obtain ⟨st, hst, lx, hlx, hxlx⟩ := collectSteps_mem _ _ _ h hx
      rw [List.mem_flatMap] at hst
      obtain ⟨ch1, _, hst1⟩ := hst
      simp only [List.mem_map] at hst1
      obtain ⟨ch2, _, hstdef⟩ := hst1
      rw [← hstdef] at hlx
      split at hlx
      · exact absurd hlx (by simp)
      · exact candidatePlaysNoBlanks_mem hlx hxlx
  · exact candidatePlaysNoBlanks_mem h hx

/-- C5: every candidate returned by the candidate search satisfies
`is_connected` or `is_through_center`; a placement adjacent to no board tile
and not covering the center cell never appears among the returned
candidates. -/
theorem spec_c5_theorem (dictionary : List String) (b : GameBoard) (rack : List Tile)
    (res : List Candidate) (h : candidate_plays dictionary b rack = some res) :
    (∀ c ∈ res, (is_connected b c.1 || is_through_center b c.1) = true) ∧
    (∀ pl s, is_connected b pl = false → is_through_center b pl = false →
      (pl, s) ∉ res) := by
  constructor
  · intro c hc
    exact (candidate_plays_mem h hc).1
  · intro pl s hconn hthr hmem
    have := (candidate_plays_mem h hmem).1
    rw [hconn, hthr] at this
    simp at this

/-- C5, witness: the candidate found on the 1 × 1 board covers the center
cell. -/
theorem spec_c5_witness :
    (is_connected boardOne placementA || is_through_center boardOne placementA) = true :=
  (spec_c5_theorem dictUpperA boardOne rackA resultOne (by decide)).1 (placementA, 1) (by decide)

/-- C4, amended: the candidate search never returns a candidate one of whose
`words_created` words is missing from the loaded dictionary, and an evaluated
ordered placement is accepted as a candidate — emitted with its score — if
and only if every word it forms is present in the loaded dictionary; but the
comparison upper-cases only the dictionary entries (at load time), while the
extracted words are compared exactly as spelled by the tile letters, not
upper-cased.  The three conjuncts: soundness over the whole search, the
accept direction of the evaluation step, and its reject direction. -/
theorem spec_c4_theorem (lines : List String) (b : GameBoard) :
    (∀ (rack : List Tile) (res : List Candidate),
      candidate_plays (loadDictionary lines) b rack = some res →
      ∀ c ∈ res, ∃ ws, words_created b c.1 = some ws ∧
        ∀ w ∈ ws, w ∈ loadDictionary lines) ∧
    (∀ (start : Coordinates) (axis : Axis) (tiles : List Tile)
       (pl : List PlayedTile) (ws : List String) (s : Int),
      build_played_tiles b start tiles axis = .ok pl →
      words_created b pl = some ws →
      (∀ w ∈ ws, w ∈ loadDictionary lines) →
      score b pl = some s →
      evalOrdered (loadDictionary lines) b start axis tiles = some [(pl, s)]) ∧
    (∀ (start : Coordinates) (axis : Axis) (tiles : List Tile)
       (pl : List PlayedTile) (ws : List String),
      build_played_tiles b start tiles axis = .ok pl →
      words_created b pl = some ws →
      (∃ w ∈ ws, w ∉ loadDictionary lines) →
      evalOrdered (loadDictionary lines) b start axis tiles = some []) := by
  refine ⟨?_, ?_, ?_⟩
  · intro rack res h c hc
    obtain ⟨ws, hws, hall⟩ := (candidate_plays_mem h hc).2.1
    refine ⟨ws, hws, ?_⟩
    intro w hw
    exact List.mem_of_elem_eq_true (List.all_eq_true.mp hall w hw)
  · intro start axis tiles pl ws s hbuild hwords hall hscore
    unfold evalOrdered
    rw [hbuild]
    dsimp only
    rw [hwords]
    dsimp only
    rw [if_pos (List.all_eq_true.mpr fun w hw => List.elem_eq_true_of_mem (hall w hw))]
    rw [hscore]
  · intro start axis tiles pl ws hbuild hwords hbad
    obtain ⟨w, hw, hnot⟩ := hbad
    unfold evalOrdered
    rw [hbuild]
    dsimp only
    rw [hwords]
    dsimp only
    rw [if_neg ?hcond]
    case hcond =>
      intro hall
      exact hnot (List.mem_of_elem_eq_true (List.all_eq_true.mp hall w hw))

/-- C4, counterexample: with dictionary file line `cat` (stored upper-cased
as `CAT`) and a rack spelling lower-case `cat`, the placement through the
center forms exactly the word `cat`, whose upper-casing is in the
dictionary; the claim's accept-iff-upper-cased-comparison would admit it,
yet the search returns no candidates at all because the extracted word is
compared as-is. -/
theorem spec_c4_counterexample :
    candidate_plays (loadDictionary ["cat"]) boardRow3 rackLowerCat = some [] ∧
      build_played_tiles boardRow3 ⟨0, 0⟩ rackLowerCat Axis.Horizontal =
        .ok placementLowerCat ∧
      words_created boardRow3 placementLowerCat = some ["cat"] ∧
      is_through_center boardRow3 placementLowerCat = true ∧
      (loadDictionary ["cat"]).contains (stringToUpper "cat") = true ∧
      (loadDictionary ["cat"]).contains "cat" = false := by
  refine ⟨by decide, rfl, by decide, by decide, by decide, by decide⟩

/-- C4, witness: on the 1 × 1 board with dictionary line `a`, the evaluated
placement forming exactly the word `A` is accepted with its score. -/
theorem spec_c4_witness :
    evalOrdered (loadDictionary dictLowerA) boardOne ⟨0, 0⟩ Axis.Horizontal rackA =
      some [(placementA, 1)] :=
  (spec_c4_theorem dictLowerA boardOne).2.1 ⟨0, 0⟩ Axis.Horizontal rackA placementA
    ["A"] 1 rfl (by decide) (by decide) (by decide)
